import Mathlib

/-!
Verification development for the sitemap import-and-cache core
(sitemap-fe-cache).  The definitions below are a shallow embedding of
the TypeScript source: the pure helpers are translated directly, the
IndexedDB stores are modelled as lists of records, and asynchronous
runs are modelled as deterministic functions of an explicit
schedule (fetch outcomes, the point at which a cancel message arrives,
and the values returned by the clock), and events posted to the
main thread are collected into a list in emission order.
-/

namespace SitemapCache

/-! ## String utilities -/

/-- Lexicographic order on character lists, modelling the code-unit
order that IndexedDB uses to compare string keys.  (For characters in
the basic multilingual plane this agrees with the UTF-16 code-unit
order of the JavaScript runtime.) -/
def lexLE : List Char → List Char → Bool
  | [], _ => true
  | _ :: _, [] => false
  | a :: as, b :: bs => if a < b then true else if b < a then false else lexLE as bs

/-- String comparison used for index key ranges. -/
def strLE (a b : String) : Bool := lexLE a.data b.data

/-- Trim, modelling JavaScript String.prototype.trim (whitespace
stripped from both ends).  Implemented over the character list so that
it evaluates by kernel reduction. -/
def jsTrim (s : String) : String :=
  String.mk
    (((s.data.dropWhile Char.isWhitespace).reverse.dropWhile Char.isWhitespace).reverse)

/-- Lowercasing, modelling JavaScript String.prototype.toLowerCase on
the ASCII range. -/
def lowerStr (s : String) : String := String.mk (s.data.map Char.toLower)

/-- Test whether the second string occurs at the start of the first,
modelling String.prototype.startsWith. -/
def strStartsWith (s p : String) : Bool := p.data.isPrefixOf s.data

/-- Occurrence of a needle anywhere in a character list. -/
def hasSub (needle : List Char) : List Char → Bool
  | [] => needle.isEmpty
  | c :: rest => needle.isPrefixOf (c :: rest) || hasSub needle rest

/-- Substring containment, modelling JavaScript String.prototype.includes. -/
def strContains (hay needle : String) : Bool := hasSub needle.data hay.data

/-- Collapse every run of repeated slash characters to a single slash;
this is the effect of the global regex replacement in normPrefix. -/
def collapseSlashes : List Char → List Char
  | [] => []
  | [c] => [c]
  | a :: b :: rest =>
    if a = '/' ∧ b = '/' then collapseSlashes (b :: rest)
    else a :: collapseSlashes (b :: rest)

/-- Embedding of normPrefix (src/lib/import-types.ts): trim, map the
empty input to "/", ensure a single leading slash, collapse repeated
slashes. -/
def normPrefix (raw : String) : String :=
  if jsTrim raw = "" then "/"
  else
    String.mk (collapseSlashes
      (if strStartsWith (jsTrim raw) "/" then jsTrim raw else "/" ++ jsTrim raw).data)

/-! ## URL parsing and path derivation -/

structure URLParts where
  scheme : String
  host : String
  pathname : String
deriving DecidableEq

/-- Model of the platform URL parser invoked by new URL(loc), restricted
to hierarchical scheme://host/path URLs: parsing succeeds when the input
starts with a nonempty alphabetic scheme followed by "://" and a
nonempty host; the pathname is the segment from the first slash after
the host up to a query or fragment delimiter (possibly empty).  Any
other shape fails, which the source turns into the catch branch of
pathFromLoc. -/
def parseURL (s : String) : Option URLParts :=
  let cs := s.data
  let scheme := cs.takeWhile fun c => c.isAlpha
  let rest := cs.drop scheme.length
  if scheme = [] then none
  else if rest.take 3 = [':', '/', '/'] then
    let hp := rest.drop 3
    let host := hp.takeWhile fun c => c != '/' && c != '?' && c != '#'
    if host = [] then none
    else
      let tl := hp.drop host.length
      let pathname := tl.takeWhile fun c => c != '?' && c != '#'
      some { scheme := String.mk scheme, host := String.mk host, pathname := String.mk pathname }
  else none

/-- Embedding of pathFromLoc (src/lib/import-types.ts, lines 227-235):
take the pathname of the parsed URL, defaulting to "/" when it is
empty; when parsing fails, treat loc itself as a path, prefixing a
slash unless it is already rooted. -/
def pathFromLoc (loc : String) : String :=
  match parseURL loc with
  | some u => if u.pathname = "" then "/" else u.pathname
  | none => if strStartsWith loc "/" then loc else "/" ++ loc

/-! ## Data model -/

/-- PageRecord as persisted in the pages object store.  The path_lc
field is optional in the TypeScript type, matching records written
before schema version 3. -/
structure PageRecord where
  loc : String
  sourceUrl : String
  lastmod : Option String
  path : String
  path_lc : Option String
deriving DecidableEq

/-- Record as supplied by callers of putPagesBulk.  The TypeScript type
omits the derived fields, but at runtime a caller could still pass
them, so the embedding carries them (they are discarded at write
time). -/
structure InputRecord where
  loc : String
  lastmod : Option String
  sourceUrl : String
  path : Option String
  path_lc : Option String
deriving DecidableEq

structure SourceMeta where
  url : String
  lastFetched : Int
  expiresAt : Int
  total : Nat
deriving DecidableEq

structure UrlEntry where
  loc : String
  lastmod : Option String
deriving DecidableEq

abbrev Store := List PageRecord
abbrev Sources := List SourceMeta

/-! ## Store operations -/

/-- Upsert by primary key loc, the semantics of store.put on the pages
object store. -/
def storePut (st : Store) (r : PageRecord) : Store :=
  if st.any fun x => x.loc == r.loc then
    st.map fun x => if x.loc = r.loc then r else x
  else st ++ [r]

/-- The stamping performed for each record inside putPagesBulk
(src/lib/import-types.ts, lines 287-290): spread the caller record,
then overwrite sourceUrl, path and path_lc with freshly computed
values. -/
def stampRecord (sourceUrl : String) (r : InputRecord) : PageRecord :=
  let path := pathFromLoc r.loc
  { loc := r.loc, lastmod := r.lastmod, sourceUrl := sourceUrl
    path := path, path_lc := some (lowerStr path) }

/-- Chunking loop shared by putPagesBulk and the chunk helper of the
worker: successive slices of the list.  Structured over a fuel
argument (initialized to the list length, which every step of the
loop strictly consumes) so that the definition evaluates by kernel
reduction.  A chunk size of zero would loop forever in the source, so
the theorems only consider positive sizes. -/
def chunkListFuel (size : Nat) : Nat → List α → List (List α)
  | _, [] => []
  | 0, l => [l]
  | fuel + 1, a :: rest =>
    (a :: rest.take (size - 1)) :: chunkListFuel size fuel (rest.drop (size - 1))

def chunkList (size : Nat) (l : List α) : List (List α) :=
  chunkListFuel size l.length l

/-- The sequence of records actually written by putPagesBulk, in write
order. -/
def putPagesBulkRecords (sourceUrl : String) (records : List InputRecord) (chunkSize : Nat) :
    List PageRecord :=
  (chunkList chunkSize records).flatMap fun ch => ch.map (stampRecord sourceUrl)

/-- Effect of putPagesBulk on the pages store. -/
def putPagesBulk (st : Store) (sourceUrl : String) (records : List InputRecord)
    (chunkSize : Nat) : Store :=
  (putPagesBulkRecords sourceUrl records chunkSize).foldl storePut st

/-- Embedding of countBySource: exact count over the by_source index. -/
def countBySource (st : Store) (sourceUrl : String) : Nat :=
  (st.filter fun r => r.sourceUrl == sourceUrl).length

/-- Embedding of getSampleBySource: forward scan over the by_source
index, skipping offset entries then collecting up to limit.  The index
order is modelled as store order restricted to the matching records. -/
def getSampleBySource (st : Store) (sourceUrl : String) (limit offset : Nat) :
    List PageRecord :=
  (((st.filter fun r => r.sourceUrl == sourceUrl).drop offset).take limit)

def getSource (ss : Sources) (url : String) : Option SourceMeta :=
  ss.find? fun m => m.url == url

def upsertSource (ss : Sources) (m : SourceMeta) : Sources :=
  if ss.any fun x => x.url == m.url then
    ss.map fun x => if x.url = m.url then m else x
  else ss ++ [m]

/-! ## Search engine -/

/-- Key of a record in the by_path_lc index.  Records lacking path_lc
are not present in that index; the default only pads the model. -/
def keyOf (r : PageRecord) : String := r.path_lc.getD ""

/-- Fallback of the JavaScript expression (rec.path_lc || rec.path ||
""): an empty or missing path_lc falls through to path (the final ""
alternative is the identity because path is a plain string here). -/
def jsOrStr (a : Option String) (b : String) : String :=
  match a with
  | some s => if s = "" then b else s
  | none => b

/-- Cursor collection loop shared by the range scan: push each matching
record, then stop as soon as the output length reaches limit.  Note
the check runs after the push, so a limit of zero still yields one
record. -/
def collectScan (p : PageRecord → Bool) (limit : Nat) (acc : Nat) :
    List PageRecord → List PageRecord
  | [] => []
  | r :: rest =>
    if p r then
      if acc + 1 ≥ limit then [r]
      else r :: collectScan p limit (acc + 1) rest
    else collectScan p limit acc rest

/-- Range predicate of searchByPathPrefixLC: the key lies between the
normalized lowercased input and that input extended with the maximal
sentinel character, inclusive on both ends. -/
def inPrefixRange (norm : String) (r : PageRecord) : Bool :=
  strLE norm (keyOf r) && strLE (keyOf r) (norm ++ "\uFFFF")

/-- Embedding of searchByPathPrefixLC (src/lib/import-types.ts, lines
346-365).  The idx argument is the by_path_lc index in cursor order. -/
def searchByPathPrefixLC (idx : List PageRecord) (pfx : String) (limit : Nat) :
    List PageRecord :=
  collectScan (inPrefixRange (lowerStr (normPrefix pfx))) limit 0 idx

/-- Scanning loop of searchBySubstringLC: count every visited record,
collect the ones whose lowercased path contains the needle, stop when
the collection reaches limit or the visit count reaches the cap. -/
def substrScan (needle : String) (limit visitCap : Nat) :
    Nat → Nat → List PageRecord → List PageRecord
  | _, _, [] => []
  | visited, collected, r :: rest =>
    let v := visited + 1
    let plc := lowerStr (jsOrStr r.path_lc r.path)
    if strContains plc needle then
      if collected + 1 ≥ limit then [r]
      else if v ≥ visitCap then [r]
      else r :: substrScan needle limit visitCap v (collected + 1) rest
    else if v ≥ visitCap then []
    else substrScan needle limit visitCap v collected rest

/-- Embedding of searchBySubstringLC (src/lib/import-types.ts, lines
368-393). -/
def searchBySubstringLC (idx : List PageRecord) (substr : String)
    (limit visitCap : Nat) : List PageRecord :=
  let needle := lowerStr (jsTrim substr)
  if needle = "" then [] else substrScan needle limit visitCap 0 0 idx

/-- Embedding of searchFuzzy (src/lib/import-types.ts, lines 396-405):
prefix search first, then a capped substring fallback for the
remaining quota, concatenated and truncated to limit.  The result is
independent of the store when the trimmed query is empty. -/
def searchFuzzy (idx : List PageRecord) (raw : String) (limit : Nat) :
    List PageRecord :=
  let q := jsTrim raw
  if q = "" then []
  else
    let prefixResults := searchByPathPrefixLC idx q limit
    if prefixResults.length ≥ limit then prefixResults
    else
      let fallback := searchBySubstringLC idx q (limit - prefixResults.length) 800
      (prefixResults ++ fallback).take limit

/-! ## The /api/sitemap route: dedup-and-cap loop -/

/-- Embedding of the dedup-and-cap loop in the POST handler of
src/app/api/sitemap/route.ts (lines 91-100): keep the first occurrence
of each loc in document order and stop once 500 entries are
collected.  The length check of the source runs after the conditional
push, on every iteration. -/
def dedupeLoop (seen : List String) (out : List UrlEntry) :
    List UrlEntry → List UrlEntry
  | [] => out
  | e :: rest =>
    let seen' := if seen.contains e.loc then seen else e.loc :: seen
    let out' := if seen.contains e.loc then out else out ++ [e]
    if out'.length ≥ 500 then out'
    else dedupeLoop seen' out' rest

def routeDedupCap (entries : List UrlEntry) : List UrlEntry :=
  dedupeLoop [] [] entries

/-- Specification-side first-occurrence deduplication, written from the
words of the claim to compare with the loop of the route. -/
def dedupFirstAux (seen : List String) : List UrlEntry → List UrlEntry
  | [] => []
  | e :: rest =>
    if seen.contains e.loc then dedupFirstAux seen rest
    else e :: dedupFirstAux (e.loc :: seen) rest

def dedupFirst (entries : List UrlEntry) : List UrlEntry := dedupFirstAux [] entries

/-! ## Worker import run

The import worker (src/workers/import-worker.ts) is an asynchronous
process; its effects are modelled as a deterministic function of a
schedule describing the outcome of each collaborator call pending at
each await point, the await during which the cancel message arrives
(JavaScript runs the cancel handler between awaits of the run), and
the values returned by the clock.  The worker pool is sequentialized:
its single shared cursor claims groups in order and each claimed
group runs its continuation atomically on the single thread. -/

structure Progress where
  totalSitemaps : Nat
  processedSitemaps : Nat
  urlsImported : Nat
  startedAt : Int
deriving DecidableEq

/-- Messages posted to the main thread.  The ghost constructor
observedCancel marks the points where a poll of the shared cancelled
flag in the source reads true and short-circuits (the while-loop
check of the pool and the check before finalization); it carries no
payload and instruments the emission order for the cancellation
claims. -/
inductive Event where
  | start (p : Progress)
  | progress (p : Progress)
  | batch (sample : List UrlEntry)
  | complete (total : Nat)
  | error (msg : String)
  | observedCancel
deriving DecidableEq

inductive FetchRes (α : Type) where
  | ok (val : α)
  | fail (msg : String)
deriving DecidableEq

/-- Result of the analysis collaborator /api/sitemap/index. -/
inductive AnalyzeInfo where
  | urlset
  | index (sitemaps : List String) (count : Option Nat)
deriving DecidableEq

/-- The await during which the cancel message arrives.  Arriving during
a fetch await aborts that request (the rejection propagates); arriving
during a store await only sets the shared flag.  A point that the run
never reaches means the cancel message never arrives. -/
inductive CancelAt where
  | never
  | duringAnalyze
  | duringUrlsetFetch
  | duringUrlsetStore
  | duringGroupFetch (k : Nat)
  | duringGroupWrite (k : Nat)
  | duringFinalize
deriving DecidableEq

/-- Message attached to the rejection of an aborted request. -/
def abortMsg : String := "The operation was aborted"

structure WSched where
  url : String
  groupSize : Nat
  samplePerBatch : Nat
  ttlMs : Int
  analyzeRes : FetchRes AnalyzeInfo
  urlsetRes : FetchRes (List UrlEntry)
  groupRes : Nat → FetchRes (List UrlEntry)
  cancelAt : CancelAt
  tStart : Int
  tMeta1 : Int
  tMeta2 : Int

/-- Record construction of processGroup and processUrlsetDirect: the
fetched entries are mapped to records carrying only loc, lastmod and
sourceUrl; the derived fields are left to putPagesBulk. -/
def toInput (sourceUrl : String) (u : UrlEntry) : InputRecord :=
  { loc := u.loc, lastmod := u.lastmod, sourceUrl := sourceUrl
    path := none, path_lc := none }

structure PoolOut where
  store : Store
  prog : Progress
  events : List Event
  cancelled : Bool
  raised : Option String
deriving DecidableEq

/-- Sequentialized worker pool over the ordered group list (the k-th
processed group is group k of the chunked list).  Each group: fetch
(abortable), chunked store write, counter increments, batch and
progress events.  A cancel arriving during the write sets the flag,
which the next while-loop check observes. -/
def runPool (s : WSched) : List (List String) → Nat → Store → Progress → PoolOut
  | [], _, st, p =>
    { store := st, prog := p, events := [], cancelled := false, raised := none }
  | g :: rest, k, st, p =>
    if s.cancelAt = CancelAt.duringGroupFetch k then
      { store := st, prog := p, events := [], cancelled := true, raised := some abortMsg }
    else
      match s.groupRes k with
      | FetchRes.fail msg =>
        { store := st, prog := p, events := [], cancelled := false, raised := some msg }
      | FetchRes.ok urls =>
        let records := urls.map (toInput s.url)
        let st' := putPagesBulk st s.url records 1000
        let p' := { p with urlsImported := p.urlsImported + records.length
                           processedSitemaps := p.processedSitemaps + g.length }
        let evs := [Event.batch (urls.take s.samplePerBatch), Event.progress p']
        if s.cancelAt = CancelAt.duringGroupWrite k then
          { store := st', prog := p'
            events := evs ++ [Event.observedCancel], cancelled := true, raised := none }
        else
          let out := runPool s rest (k + 1) st' p'
          { out with events := evs ++ out.events }

structure RunOut where
  events : List Event
  store : Store
  meta : Option SourceMeta
  prog : Progress
  cancelledFinal : Bool
deriving DecidableEq

/-- Embedding of run (src/workers/import-worker.ts, lines 123-178)
together with the cancel handler of the worker: analysis, then either
the direct urlset path (processUrlsetDirect) or the chunked group pool
followed by finalization.  The catch of run posts an error message
unconditionally; processUrlsetDirect and the finalization of run never
poll the cancelled flag after their respective checks, so a cancel
arriving during those awaits does not suppress the complete event. -/
def workerRun (s : WSched) (st0 : Store) : RunOut :=
  let pz : Progress :=
    { totalSitemaps := 0, processedSitemaps := 0, urlsImported := 0, startedAt := s.tStart }
  if s.cancelAt = CancelAt.duringAnalyze then
    { events := [Event.error abortMsg], store := st0, meta := none, prog := pz
      cancelledFinal := true }
  else
    match s.analyzeRes with
    | FetchRes.fail msg =>
      { events := [Event.error msg], store := st0, meta := none, prog := pz
        cancelledFinal := false }
    | FetchRes.ok AnalyzeInfo.urlset =>
      let p0 : Progress :=
        { totalSitemaps := 1, processedSitemaps := 0, urlsImported := 0, startedAt := s.tStart }
      if s.cancelAt = CancelAt.duringUrlsetFetch then
        { events := [Event.start p0, Event.error abortMsg], store := st0, meta := none
          prog := p0, cancelledFinal := true }
      else
        match s.urlsetRes with
        | FetchRes.fail msg =>
          { events := [Event.start p0, Event.error msg], store := st0, meta := none
            prog := p0, cancelledFinal := false }
        | FetchRes.ok urls =>
          let records := urls.map (toInput s.url)
          let st' := putPagesBulk st0 s.url records 1000
          let total := countBySource st' s.url
          let m : SourceMeta :=
            { url := s.url, lastFetched := s.tMeta1, expiresAt := s.tMeta2 + s.ttlMs
              total := total }
          -- the batch sample of processUrlsetDirect uses the default
          -- samplePerBatch of 50, not the option of the run
          { events := [Event.start p0, Event.batch (urls.take 50), Event.complete total]
            store := st', meta := some m, prog := p0
            cancelledFinal := decide (s.cancelAt = CancelAt.duringUrlsetStore) }
    | FetchRes.ok (AnalyzeInfo.index sitemaps count) =>
      let totalSitemaps := count.getD sitemaps.length
      let groups := chunkList s.groupSize sitemaps
      let p0 : Progress :=
        { totalSitemaps := totalSitemaps, processedSitemaps := 0, urlsImported := 0
          startedAt := s.tStart }
      let pool := runPool s groups 0 st0 p0
      match pool.raised with
      | some msg =>
        { events := Event.start p0 :: pool.events ++ [Event.error msg]
          store := pool.store, meta := none, prog := pool.prog
          cancelledFinal := pool.cancelled }
      | none =>
        if pool.cancelled then
          { events := Event.start p0 :: pool.events ++ [Event.observedCancel]
            store := pool.store, meta := none, prog := pool.prog, cancelledFinal := true }
        else
          let total := countBySource pool.store s.url
          let m : SourceMeta :=
            { url := s.url, lastFetched := s.tMeta1, expiresAt := s.tMeta2 + s.ttlMs
              total := total }
          { events := Event.start p0 :: pool.events ++ [Event.complete total]
            store := pool.store, meta := some m, prog := pool.prog
            cancelledFinal := decide (s.cancelAt = CancelAt.duringFinalize) }

/-! ## Cache freshness manager (src/unnamed sitemap-store module) -/

structure ImportResult where
  sample : List PageRecord
  total : Nat
  meta : SourceMeta
deriving DecidableEq

/-- Schedule of one importAndCache call: the outcome of the single
fetch of fetchUrlsFromServer and the two values returned by Date.now()
when the fresh SourceMeta is built. -/
structure ICSched where
  fetchRes : FetchRes (List UrlEntry)
  t1 : Int
  t2 : Int

/-- Embedding of importAndCache: fetch all entries, bulk-write them
with the default chunk size of 2000, recount by source, upsert a fresh
SourceMeta, and return a sample with the recomputed total. -/
def importAndCache (url : String) (s : ICSched) (pages : Store) (sources : Sources)
    (ttlMs : Int) (sampleSize : Nat) :
    FetchRes (ImportResult × Store × Sources) :=
  match s.fetchRes with
  | FetchRes.fail msg => FetchRes.fail msg
  | FetchRes.ok entries =>
    let pages' := putPagesBulk pages url (entries.map (toInput url)) 2000
    let total := countBySource pages' url
    let m : SourceMeta :=
      { url := url, lastFetched := s.t1, expiresAt := s.t2 + ttlMs, total := total }
    let sources' := upsertSource sources m
    let sample := getSampleBySource pages' url sampleSize 0
    FetchRes.ok ({ sample := sample, total := total, meta := m }, pages', sources')

/-- Outcome of one refreshIfExpired call as seen by its caller:
whether the background import was triggered, the value handed to the
onUpdated callback (none when the import failed or was not triggered),
and the error propagated to the caller (always none: the catch of the
background promise swallows every failure). -/
structure RefreshOut where
  triggered : Bool
  updated : Option ImportResult
  propagated : Option String
deriving DecidableEq

/-- Embedding of refreshIfExpired: read the SourceMeta, compare the
clock against expiresAt, and fire the background import when expired.
The background failure branch leaves the stores untouched and reports
nothing. -/
def refreshIfExpired (url : String) (now : Int) (s : ICSched) (ttlMs : Int)
    (pages : Store) (sources : Sources) : RefreshOut × Store × Sources :=
  match getSource sources url with
  | none => ({ triggered := false, updated := none, propagated := none }, pages, sources)
  | some meta =>
    if meta.expiresAt < now then
      match importAndCache url s pages sources ttlMs 200 with
      | FetchRes.ok (r, pages', sources') =>
        ({ triggered := true, updated := some r, propagated := none }, pages', sources')
      | FetchRes.fail _ =>
        ({ triggered := true, updated := none, propagated := none }, pages, sources)
    else ({ triggered := false, updated := none, propagated := none }, pages, sources)

/-! ## Lemmas about the scanning loops -/

theorem collectScan_eq_filter_take (p : PageRecord → Bool) (limit : Nat) :
    ∀ (l : List PageRecord) (acc : Nat), acc < limit →
      collectScan p limit acc l = (l.filter p).take (limit - acc) := by
  intro l
  induction l with
  | nil => intro acc _; simp [collectScan]
  | cons r rest ih =>
    intro acc hacc
    by_cases hp : p r
    · by_cases hstop : acc + 1 ≥ limit
      · have hla : limit - acc = 1 := by omega
        simp [collectScan, hp, hstop, hla]
      · have hsu : limit - acc = (limit - (acc + 1)) + 1 := by omega
        simp only [collectScan, hp, if_true, if_neg hstop]
        rw [ih (acc + 1) (by omega)]
        simp [hsu, List.filter_cons, hp]
    · simp only [collectScan, hp]
      rw [ih acc hacc]
      simp [List.filter_cons, hp]

theorem collectScan_length_le (p : PageRecord → Bool) (limit : Nat)
    (l : List PageRecord) (hlim : 0 < limit) :
    (collectScan p limit 0 l).length ≤ limit := by
  rw [collectScan_eq_filter_take p limit l 0 hlim]
  simp

theorem substrScan_mem (needle : String) (limit cap : Nat) :
    ∀ (l : List PageRecord) (v c : Nat) (r : PageRecord),
      r ∈ substrScan needle limit cap v c l →
      strContains (lowerStr (jsOrStr r.path_lc r.path)) needle = true := by
  intro l
  induction l with
  | nil => intro v c r h; simp [substrScan] at h
  | cons x rest ih =>
    intro v c r h
    simp only [substrScan] at h
    by_cases hm : strContains (lowerStr (jsOrStr x.path_lc x.path)) needle
    · rw [if_pos hm] at h
      by_cases h1 : c + 1 ≥ limit
      · rw [if_pos h1] at h
        simp at h; subst h; exact hm
      · rw [if_neg h1] at h
        by_cases h2 : v + 1 ≥ cap
        · rw [if_pos h2] at h; simp at h; subst h; exact hm
        · rw [if_neg h2] at h
          rcases List.mem_cons.mp h with h | h
          · subst h; exact hm
          · exact ih _ _ r h
    · rw [if_neg hm] at h
      by_cases h2 : v + 1 ≥ cap
      · rw [if_pos h2] at h; simp at h
      · rw [if_neg h2] at h; exact ih _ _ r h

theorem substrScan_length_le (needle : String) (limit cap : Nat) :
    ∀ (l : List PageRecord) (v c : Nat), c < limit →
      (substrScan needle limit cap v c l).length ≤ limit - c := by
  intro l
  induction l with
  | nil => intro v c hc; simp [substrScan]
  | cons x rest ih =>
    intro v c hc
    simp only [substrScan]
    by_cases hm : strContains (lowerStr (jsOrStr x.path_lc x.path)) needle
    · rw [if_pos hm]
      by_cases h1 : c + 1 ≥ limit
      · rw [if_pos h1]; simp; omega
      · rw [if_neg h1]
        by_cases h2 : v + 1 ≥ cap
        · rw [if_pos h2]; simp; omega
        · rw [if_neg h2]
          have := ih (v + 1) (c + 1) (by omega)
          simp only [List.length_cons]
          omega
    · rw [if_neg hm]
      by_cases h2 : v + 1 ≥ cap
      · rw [if_pos h2]; simp
      · rw [if_neg h2]; exact ih (v + 1) c hc

theorem substrScan_take_cap (needle : String) (limit cap : Nat) :
    ∀ (l : List PageRecord) (v c : Nat), v < cap →
      substrScan needle limit cap v c l =
        substrScan needle limit cap v c (l.take (cap - v)) := by
  intro l
  induction l with
  | nil => intro v c _; simp
  | cons x rest ih =>
    intro v c hv
    have hpos : cap - v = (cap - (v + 1)) + 1 := by omega
    rw [hpos, List.take_succ_cons]
    by_cases h2 : v + 1 ≥ cap
    · have hz : cap - (v + 1) = 0 := by omega
      rw [hz]
      simp only [List.take_zero, substrScan]
      by_cases hm : strContains (lowerStr (jsOrStr x.path_lc x.path)) needle
      · rw [if_pos hm, if_pos hm]
        by_cases h1 : c + 1 ≥ limit
        · rw [if_pos h1, if_pos h1]
        · rw [if_neg h1, if_neg h1, if_pos h2, if_pos h2]
      · rw [if_neg hm, if_neg hm, if_pos h2, if_pos h2]
    · simp only [substrScan]
      by_cases hm : strContains (lowerStr (jsOrStr x.path_lc x.path)) needle
      · rw [if_pos hm, if_pos hm]
        by_cases h1 : c + 1 ≥ limit
        · rw [if_pos h1, if_pos h1]
        · rw [if_neg h1, if_neg h1, if_neg h2, if_neg h2]
          rw [ih (v + 1) (c + 1) (by omega)]
      · rw [if_neg hm, if_neg hm, if_neg h2, if_neg h2]
        rw [ih (v + 1) c (by omega)]

/-! ## Lemmas about prefix normalization -/

/-- Absence of adjacent repeated slashes. -/
def noDS : List Char → Bool
  | [] => true
  | [_] => true
  | a :: b :: rest => !(a == '/' && b == '/') && noDS (b :: rest)

def noDoubleSlash (s : String) : Bool := noDS s.data

theorem collapseSlashes_cons :
    ∀ (n : Nat) (b : Char) (rest : List Char), rest.length ≤ n →
      ∃ u, collapseSlashes (b :: rest) = b :: u := by
  intro n
  induction n with
  | zero =>
    intro b rest hlen
    have : rest = [] := List.length_eq_zero.mp (Nat.le_zero.mp hlen)
    subst this
    exact ⟨[], rfl⟩
  | succ n ih =>
    intro b rest hlen
    match rest with
    | [] => exact ⟨[], rfl⟩
    | c :: rest' =>
      by_cases hbc : b = '/' ∧ c = '/'
      · obtain ⟨hb, hc⟩ := hbc
        subst hb; subst hc
        have := ih '/' rest' (by simp at hlen; omega)
        simpa [collapseSlashes] using this
      · refine ⟨collapseSlashes (c :: rest'), ?_⟩
        simp [collapseSlashes, hbc]

theorem noDS_collapseSlashes :
    ∀ (n : Nat) (l : List Char), l.length ≤ n → noDS (collapseSlashes l) = true := by
  intro n
  induction n with
  | zero =>
    intro l hlen
    have : l = [] := List.length_eq_zero.mp (Nat.le_zero.mp hlen)
    subst this; rfl
  | succ n ih =>
    intro l hlen
    match l with
    | [] => rfl
    | [c] => rfl
    | a :: b :: rest =>
      by_cases hab : a = '/' ∧ b = '/'
      · rw [show collapseSlashes (a :: b :: rest) = collapseSlashes (b :: rest) by
          simp [collapseSlashes, hab]]
        exact ih (b :: rest) (by simp at hlen ⊢; omega)
      · rw [show collapseSlashes (a :: b :: rest) = a :: collapseSlashes (b :: rest) by
          simp [collapseSlashes, hab]]
        obtain ⟨u, hu⟩ := collapseSlashes_cons rest.length b rest (Nat.le_refl _)
        rw [hu]
        have hnods : noDS (b :: u) = true := by
          rw [← hu]
          exact ih (b :: rest) (by simp at hlen ⊢; omega)
        simp only [noDS, hnods, Bool.and_true]
        simp only [Bool.not_eq_true', Bool.and_eq_false_iff]
        by_cases ha : a = '/'
        · right
          simp only [beq_eq_false_iff_ne, ne_eq]
          intro hb
          exact hab ⟨ha, hb⟩
        · left
          simp [ha]

theorem normPrefix_startsWith (pfx : String) :
    strStartsWith (normPrefix pfx) "/" = true := by
  by_cases h : jsTrim pfx = ""
  · rw [normPrefix, if_pos h]; rfl
  · rw [normPrefix, if_neg h]
    have hd : ∃ l, (if strStartsWith (jsTrim pfx) "/" then jsTrim pfx
        else "/" ++ jsTrim pfx).data = '/' :: l := by
      by_cases hs : strStartsWith (jsTrim pfx) "/"
      · rw [if_pos hs]
        unfold strStartsWith at hs
        match hdata : (jsTrim pfx).data with
        | [] => rw [hdata] at hs; simp [List.isPrefixOf] at hs
        | c :: u =>
          rw [hdata] at hs
          simp [List.isPrefixOf] at hs
          exact ⟨u, by rw [← hs]⟩
      · rw [if_neg hs]
        exact ⟨(jsTrim pfx).data, rfl⟩
    obtain ⟨l, hl⟩ := hd
    rw [hl]
    obtain ⟨w, hw⟩ := collapseSlashes_cons l.length '/' l (Nat.le_refl _)
    simp only [strStartsWith, hw]
    simp [List.isPrefixOf]

theorem normPrefix_noDoubleSlash (pfx : String) :
    noDoubleSlash (normPrefix pfx) = true := by
  by_cases h : jsTrim pfx = ""
  · rw [normPrefix, if_pos h]; rfl
  · rw [normPrefix, if_neg h]
    exact noDS_collapseSlashes _ _ (Nat.le_refl _)

/-! ## Concrete records used to instantiate the search claims -/

def recAbout : PageRecord :=
  { loc := "https://shop.example/about", sourceUrl := "https://shop.example/sitemap.xml"
    lastmod := none, path := "/about", path_lc := some "/about" }

def recProduct : PageRecord :=
  { loc := "https://shop.example/Product", sourceUrl := "https://shop.example/sitemap.xml"
    lastmod := none, path := "/Product", path_lc := some "/product" }

def recProductsA : PageRecord :=
  { loc := "https://shop.example/products/a", sourceUrl := "https://shop.example/sitemap.xml"
    lastmod := none, path := "/products/a", path_lc := some "/products/a" }

def recDup : PageRecord :=
  { loc := "https://shop.example/prod", sourceUrl := "https://shop.example/sitemap.xml"
    lastmod := none, path := "/prod", path_lc := some "/prod" }

def recC9 : PageRecord :=
  { loc := "https://shop.example/a", sourceUrl := "https://shop.example/sitemap.xml"
    lastmod := none, path := "/a", path_lc := some "/a" }

/-- The maximal sentinel character appended to the upper range bound. -/
def maxSentinel : Char := '\uFFFF'

/-! ## Claim C4 -/

/-- C4 (amended: the limit is at least one; the source loop checks the
length bound only after pushing, so a limit of zero still returns one
record): searchByPrefix normalizes the input (trim, ensure a single
leading slash, collapse repeated slashes), lowercases it, and returns
in index order at most limit records whose key lies in the inclusive
range from the normalized prefix to the normalized prefix extended by
the maximal sentinel character; on the stored paths of scenario C the
query "/prod" returns exactly the records for "/product" and
"/products/a" and excludes "/about". -/
theorem c4_searchByPrefix_range (idx : List PageRecord) (pfx : String) (limit : Nat)
    (hlim : 1 ≤ limit) :
    searchByPathPrefixLC idx pfx limit =
        (idx.filter (inPrefixRange (lowerStr (normPrefix pfx)))).take limit
    ∧ (searchByPathPrefixLC idx pfx limit).length ≤ limit
    ∧ strStartsWith (normPrefix pfx) "/" = true
    ∧ noDoubleSlash (normPrefix pfx) = true
    ∧ (∀ r, inPrefixRange (lowerStr (normPrefix pfx)) r =
        (strLE (lowerStr (normPrefix pfx)) (keyOf r) &&
         strLE (keyOf r) (lowerStr (normPrefix pfx) ++ "\uFFFF")))
    ∧ searchByPathPrefixLC [recAbout, recProduct, recProductsA] "/prod" 10 =
        [recProduct, recProductsA] := by
  refine ⟨?_, ?_, normPrefix_startsWith pfx, normPrefix_noDoubleSlash pfx,
    fun r => rfl, by decide⟩
  · have h := collectScan_eq_filter_take (inPrefixRange (lowerStr (normPrefix pfx)))
      limit idx 0 hlim
    simpa [searchByPathPrefixLC] using h
  · exact collectScan_length_le _ _ _ hlim

/-- C4 counterexample: with limit zero the cursor loop still returns
one matching record, so the claim as stated over every limit fails. -/
theorem c4_counterexample :
    ¬ ((searchByPathPrefixLC [recProduct] "/prod" 0).length ≤ 0) := by decide

/-- Witness instantiating c4_searchByPrefix_range. -/
theorem c4_witness :
    (1 : Nat) ≤ 10 ∧
      searchByPathPrefixLC [recAbout, recProduct, recProductsA] "/prod" 10 =
        ([recAbout, recProduct, recProductsA].filter
          (inPrefixRange (lowerStr (normPrefix "/prod")))).take 10 :=
  ⟨by decide, (c4_searchByPrefix_range [recAbout, recProduct, recProductsA] "/prod" 10
    (by decide)).1⟩

/-! ## Claim C9 -/

/-- C9: for a query that trims to the empty string, searchFuzzy
returns the empty list for every store and every limit, while the
prefix normalization maps the same input to "/", so a direct
searchByPrefix call matches every stored record (every index entry
whose key starts with a slash followed by characters below the
sentinel lies in the range) and returns the store up to the limit. -/
theorem c9_whitespace_query (raw : String) (idx : List PageRecord) (limit : Nat)
    (hraw : jsTrim raw = "") :
    searchFuzzy idx raw limit = []
    ∧ lowerStr (normPrefix raw) = "/"
    ∧ ((∀ r ∈ idx, ∃ t, (keyOf r).data = '/' :: t ∧ ∀ c ∈ t, c < maxSentinel) →
        (∀ r ∈ idx, inPrefixRange (lowerStr (normPrefix raw)) r = true)
        ∧ (1 ≤ limit → searchByPathPrefixLC idx raw limit = idx.take limit)) := by
  have hnorm : lowerStr (normPrefix raw) = "/" := by
    rw [normPrefix, if_pos hraw]; rfl
  have hrange : (∀ r ∈ idx, ∃ t, (keyOf r).data = '/' :: t ∧ ∀ c ∈ t, c < maxSentinel) →
      ∀ r ∈ idx, inPrefixRange (lowerStr (normPrefix raw)) r = true := by
    intro hidx r hr
    obtain ⟨t, ht, hlt⟩ := hidx r hr
    rw [hnorm]
    have h1 : strLE "/" (keyOf r) = true := by
      simp only [strLE, ht]
      show lexLE ['/'] ('/' :: t) = true
      simp [lexLE]
    have h2 : strLE (keyOf r) ("/" ++ "\uFFFF") = true := by
      simp only [strLE, ht]
      show lexLE ('/' :: t) ['/', '\uFFFF'] = true
      simp only [lexLE, lt_irrefl, if_false]
      match t, hlt with
      | [], _ => rfl
      | c :: t', hlt =>
        have hc : c < maxSentinel := hlt c (by simp)
        simp [lexLE, hc, show c < '\uFFFF' from hc]
    show (strLE "/" (keyOf r) && strLE (keyOf r) ("/" ++ "\uFFFF")) = true
    rw [h1, h2]
    rfl
  refine ⟨by simp [searchFuzzy, hraw], hnorm, fun hidx => ⟨hrange hidx, fun hlim => ?_⟩⟩
  have heq := collectScan_eq_filter_take (inPrefixRange (lowerStr (normPrefix raw)))
    limit idx 0 hlim
  have hfilter : idx.filter (inPrefixRange (lowerStr (normPrefix raw))) = idx :=
    List.filter_eq_self.mpr (hrange hidx)
  simp only [searchByPathPrefixLC] at heq ⊢
  rw [heq, hfilter]
  simp

/-- Witness instantiating c9_whitespace_query. -/
theorem c9_witness :
    searchFuzzy [recC9] "  " 3 = [] ∧ searchByPathPrefixLC [recC9] "  " 3 = [recC9] := by
  have h := c9_whitespace_query "  " [recC9] 3 (by decide)
  refine ⟨h.1, ?_⟩
  have h3 := (h.2.2 ?_).2 (by decide)
  · simpa using h3
  · intro r hr
    have : r = recC9 := by simpa using hr
    subst this
    exact ⟨['a'], by decide, by decide⟩

/-! ## Claim C3 -/

/-- C3 (amended: the limit is at least one — with a limit of zero the
prefix stage can return one record and the branch returns it without
truncation — and a query that trims to the empty string short-circuits
to the empty result before either stage runs): for every other query
searchFuzzy runs the prefix search first and performs the substring
fallback exactly when it returned fewer than limit results; the
fallback visits at most 800 index entries, collects at most the
remaining quota of records whose lowercased path contains the
lowercased query, the concatenation is truncated to limit, and the two
stages are not deduplicated against each other: a record matching both
appears twice. -/
theorem c3_searchFuzzy_two_stage (idx : List PageRecord) (raw : String) (limit : Nat)
    (pre fb : List PageRecord)
    (hlim : 1 ≤ limit)
    (hpre : pre = searchByPathPrefixLC idx (jsTrim raw) limit)
    (hfb : fb = searchBySubstringLC idx (jsTrim raw) (limit - pre.length) 800) :
    searchFuzzy idx raw limit =
      (if jsTrim raw = "" then []
       else if limit ≤ pre.length then pre else (pre ++ fb).take limit)
    ∧ (searchFuzzy idx raw limit).length ≤ limit
    ∧ (∀ r ∈ fb, strContains (lowerStr (jsOrStr r.path_lc r.path))
        (lowerStr (jsTrim (jsTrim raw))) = true)
    ∧ (pre.length < limit → fb.length ≤ limit - pre.length)
    ∧ fb = searchBySubstringLC (idx.take 800) (jsTrim raw) (limit - pre.length) 800
    ∧ searchFuzzy [recDup] "prod" 10 = [recDup, recDup] := by
  have hshape : searchFuzzy idx raw limit =
      (if jsTrim raw = "" then []
       else if limit ≤ pre.length then pre else (pre ++ fb).take limit) := by
    by_cases hq : jsTrim raw = ""
    · rw [if_pos hq]
      simp [searchFuzzy, hq]
    · rw [if_neg hq]
      subst hpre; subst hfb
      simp only [searchFuzzy]
      rw [if_neg hq]
  have hprelen : pre.length ≤ limit := by
    subst hpre
    exact collectScan_length_le _ _ _ hlim
  refine ⟨hshape, ?_, ?_, ?_, ?_, by decide⟩
  · rw [hshape]
    by_cases hq : jsTrim raw = ""
    · rw [if_pos hq]; simp
    · rw [if_neg hq]
      by_cases hc : limit ≤ pre.length
      · rw [if_pos hc]; exact hprelen
      · rw [if_neg hc]; simp
  · intro r hr
    subst hfb
    simp only [searchBySubstringLC] at hr
    by_cases hn : lowerStr (jsTrim (jsTrim raw)) = ""
    · rw [if_pos hn] at hr; simp at hr
    · rw [if_neg hn] at hr
      exact substrScan_mem _ _ _ idx 0 0 r hr
  · intro hlt
    subst hfb
    simp only [searchBySubstringLC]
    by_cases hn : lowerStr (jsTrim (jsTrim raw)) = ""
    · rw [if_pos hn]; simp
    · rw [if_neg hn]
      have := substrScan_length_le (lowerStr (jsTrim (jsTrim raw)))
        (limit - pre.length) 800 idx 0 0 (by omega)
      omega
  · subst hfb
    simp only [searchBySubstringLC]
    by_cases hn : lowerStr (jsTrim (jsTrim raw)) = ""
    · rw [if_pos hn, if_pos hn]
    · rw [if_neg hn, if_neg hn]
      have := substrScan_take_cap (lowerStr (jsTrim (jsTrim raw)))
        (limit - pre.length) 800 idx 0 0 (by omega)
      simpa using this

/-- C3 counterexample: with limit zero and a matching store the result
has one element, so the claim as stated over every limit fails on its
bound that the result length is at most the limit. -/
theorem c3_counterexample :
    ¬ ((searchFuzzy [recDup] "prod" 0).length ≤ 0) := by decide

/-- Witness instantiating c3_searchFuzzy_two_stage. -/
theorem c3_witness : (searchFuzzy [recDup] "prod" 10).length ≤ 10 :=
  (c3_searchFuzzy_two_stage [recDup] "prod" 10
    (searchByPathPrefixLC [recDup] (jsTrim "prod") 10)
    (searchBySubstringLC [recDup] (jsTrim "prod")
      (10 - (searchByPathPrefixLC [recDup] (jsTrim "prod") 10).length) 800)
    (by decide) rfl rfl).2.1

/-! ## Claim C2 -/

theorem chunkListFuel_flatMap_map (f : α → β) (size : Nat) :
    ∀ (fuel : Nat) (l : List α), l.length ≤ fuel →
      (chunkListFuel size fuel l).flatMap (List.map f) = l.map f := by
  intro fuel
  induction fuel with
  | zero =>
    intro l hlen
    have : l = [] := List.length_eq_zero.mp (Nat.le_zero.mp hlen)
    subst this; rfl
  | succ n ih =>
    intro l hlen
    match l with
    | [] => rfl
    | a :: rest =>
      simp only [chunkListFuel, List.flatMap_cons, List.map_cons, List.cons_append]
      have hrec := ih (rest.drop (size - 1)) (by simp at hlen ⊢; omega)
      rw [hrec]
      rw [← List.map_append, List.take_append_drop]

theorem putPagesBulkRecords_eq_map (sourceUrl : String) (records : List InputRecord)
    (chunkSize : Nat) :
    putPagesBulkRecords sourceUrl records chunkSize =
      records.map (stampRecord sourceUrl) := by
  unfold putPagesBulkRecords chunkList
  exact chunkListFuel_flatMap_map _ _ _ _ (Nat.le_refl _)

theorem mem_storePut (st : Store) (r x : PageRecord) (h : x ∈ storePut st r) :
    x ∈ st ∨ x = r := by
  unfold storePut at h
  by_cases ha : st.any fun y => y.loc == r.loc
  · rw [if_pos ha] at h
    obtain ⟨y, hy, hxy⟩ := List.mem_map.mp h
    by_cases hl : y.loc = r.loc
    · right; rw [← hxy, if_pos hl]
    · left; rw [← hxy, if_neg hl]; exact hy
  · rw [if_neg ha] at h
    rcases List.mem_append.mp h with h | h
    · left; exact h
    · right; simpa using h

theorem foldl_storePut_pres (P : PageRecord → Prop) :
    ∀ (l : List PageRecord) (st : Store), (∀ r ∈ st, P r) → (∀ r ∈ l, P r) →
      ∀ r ∈ l.foldl storePut st, P r := by
  intro l
  induction l with
  | nil => intro st hst _ r hr; exact hst r hr
  | cons a rest ih =>
    intro st hst hl r hr
    simp only [List.foldl_cons] at hr
    refine ih (storePut st a) ?_ (fun x hx => hl x (List.mem_cons_of_mem a hx)) r hr
    intro x hx
    rcases mem_storePut st a x hx with h | h
    · exact hst x h
    · exact h ▸ hl a (List.mem_cons_self a rest)

/-- C2: every record persisted by putPagesBulk carries path recomputed
from its loc by the deterministic derivation (pathname of the parsed
URL defaulting to "/", or the loc itself rooted with a slash when
parsing fails) and path_lc equal to the lowercased path, regardless of
any caller-supplied values for those fields; consequently the
invariant path_lc = lowercase(path) holds for every record of the
store after any bulk write that it held for before. -/
theorem c2_putPagesBulk_derived (sourceUrl : String) (records : List InputRecord)
    (chunkSize : Nat) (_hcs : 0 < chunkSize) :
    putPagesBulkRecords sourceUrl records chunkSize = records.map (stampRecord sourceUrl)
    ∧ (∀ r ∈ putPagesBulkRecords sourceUrl records chunkSize,
        r.path = pathFromLoc r.loc ∧ r.path_lc = some (lowerStr r.path))
    ∧ (∀ loc u, parseURL loc = some u →
        pathFromLoc loc = if u.pathname = "" then "/" else u.pathname)
    ∧ (∀ loc, parseURL loc = none →
        pathFromLoc loc = if strStartsWith loc "/" then loc else "/" ++ loc)
    ∧ (∀ st : Store, (∀ r ∈ st, r.path_lc = some (lowerStr r.path)) →
        ∀ r ∈ putPagesBulk st sourceUrl records chunkSize,
          r.path_lc = some (lowerStr r.path)) := by
  have hmap := putPagesBulkRecords_eq_map sourceUrl records chunkSize
  have hmem : ∀ r ∈ putPagesBulkRecords sourceUrl records chunkSize,
      r.path = pathFromLoc r.loc ∧ r.path_lc = some (lowerStr r.path) := by
    rw [hmap]
    intro r hr
    obtain ⟨x, _, hx⟩ := List.mem_map.mp hr
    subst hx
    exact ⟨rfl, rfl⟩
  refine ⟨hmap, hmem, ?_, ?_, ?_⟩
  · intro loc u h; unfold pathFromLoc; rw [h]
  · intro loc h; unfold pathFromLoc; rw [h]
  · intro st hst r hr
    exact foldl_storePut_pres (fun x => x.path_lc = some (lowerStr x.path)) _ st hst
      (fun x hx => (hmem x hx).2) r hr

def c2junk : InputRecord :=
  { loc := "https://e.com/A", lastmod := none, sourceUrl := "junk"
    path := some "wrong", path_lc := some "WRONG" }

/-- Witness instantiating c2_putPagesBulk_derived. -/
theorem c2_witness :
    (0 : Nat) < 2 ∧
      putPagesBulkRecords "s" [c2junk] 2 = [c2junk].map (stampRecord "s") :=
  ⟨by decide, (c2_putPagesBulk_derived "s" [c2junk] 2 (by decide)).1⟩

/-! ## Claim C10 -/

theorem dedupeLoop_eq :
    ∀ (entries : List UrlEntry) (seen : List String) (out : List UrlEntry),
      out.length < 500 →
      dedupeLoop seen out entries = out ++ (dedupFirstAux seen entries).take (500 - out.length) := by
  intro entries
  induction entries with
  | nil => intro seen out _; simp [dedupeLoop, dedupFirstAux]
  | cons e rest ih =>
    intro seen out hlen
    by_cases hc : seen.contains e.loc = true
    · have hstep : dedupeLoop seen out (e :: rest) = dedupeLoop seen out rest := by
        simp only [dedupeLoop, hc]
        simp only [if_true]
        rw [if_neg (show ¬ out.length ≥ 500 by omega)]
      rw [hstep, ih seen out hlen]
      simp only [dedupFirstAux, hc, if_true]
    · have hc' : seen.contains e.loc = false := by simpa using hc
      by_cases hfull : out.length + 1 ≥ 500
      · have hstep : dedupeLoop seen out (e :: rest) = out ++ [e] := by
          simp only [dedupeLoop, hc']
          simp only [Bool.false_eq_true, if_false]
          rw [if_pos (show (out ++ [e]).length ≥ 500 by simp; omega)]
        have h1 : 500 - out.length = 1 := by omega
        rw [hstep]
        simp only [dedupFirstAux, hc']
        simp only [Bool.false_eq_true, if_false, h1, List.take_succ_cons, List.take_zero]
      · have hstep : dedupeLoop seen out (e :: rest) =
            dedupeLoop (e.loc :: seen) (out ++ [e]) rest := by
          simp only [dedupeLoop, hc']
          simp only [Bool.false_eq_true, if_false]
          rw [if_neg (show ¬ (out ++ [e]).length ≥ 500 by simp; omega)]
        rw [hstep, ih (e.loc :: seen) (out ++ [e]) (by simp; omega)]
        have h2 : 500 - out.length = (500 - (out ++ [e]).length) + 1 := by simp; omega
        simp only [dedupFirstAux, hc']
        simp only [Bool.false_eq_true, if_false, h2, List.take_succ_cons]
        simp

theorem dedupFirstAux_spec :
    ∀ (entries : List UrlEntry) (seen : List String),
      ((dedupFirstAux seen entries).map (fun e => e.loc)).Nodup
      ∧ ∀ e ∈ dedupFirstAux seen entries, seen.contains e.loc = false := by
  intro entries
  induction entries with
  | nil => intro seen; refine ⟨?_, ?_⟩ <;> simp [dedupFirstAux]
  | cons e rest ih =>
    intro seen
    by_cases hc : seen.contains e.loc = true
    · simp only [dedupFirstAux, hc, if_true]
      exact ih seen
    · have hc' : seen.contains e.loc = false := by simpa using hc
      simp only [dedupFirstAux, hc']
      simp only [Bool.false_eq_true, if_false]
      obtain ⟨hnodup, hmem⟩ := ih (e.loc :: seen)
      constructor
      · simp only [List.map_cons, List.nodup_cons]
        refine ⟨?_, hnodup⟩
        intro hin
        obtain ⟨x, hx, hloc⟩ := List.mem_map.mp hin
        have := hmem x hx
        rw [List.contains_cons] at this
        simp [hloc] at this
      · intro x hx
        rcases List.mem_cons.mp hx with h | h
        · subst h; simpa using hc
        · have := hmem x h
          rw [List.contains_cons] at this
          exact (Bool.or_eq_false_iff.mp this).2

theorem storePut_length (st : Store) (r : PageRecord) :
    (storePut st r).length ≤ st.length + 1 := by
  unfold storePut
  by_cases h : st.any fun x => x.loc == r.loc
  · rw [if_pos h]; simp
  · rw [if_neg h]; simp

theorem foldl_storePut_length :
    ∀ (l : List PageRecord) (st : Store),
      (l.foldl storePut st).length ≤ st.length + l.length := by
  intro l
  induction l with
  | nil => intro st; simp
  | cons a rest ih =>
    intro st
    simp only [List.foldl_cons, List.length_cons]
    have h1 := ih (storePut st a)
    have h2 := storePut_length st a
    omega

/-- C10: the dedup-and-cap loop of the /api/sitemap route keeps the
first occurrence of each loc in document order and stops after 500
entries, so it equals the plain first-occurrence deduplication
truncated to 500, its output locs are pairwise distinct, and a direct
urlset import that bulk-writes its output grows the page store by at
most 500 records. -/
theorem c10_route_dedup_cap (entries : List UrlEntry) :
    routeDedupCap entries = (dedupFirst entries).take 500
    ∧ (routeDedupCap entries).length ≤ 500
    ∧ ((routeDedupCap entries).map (fun e => e.loc)).Nodup
    ∧ ∀ (st : Store) (url : String),
        (putPagesBulk st url ((routeDedupCap entries).map (toInput url)) 1000).length ≤
          st.length + 500 := by
  have h1 : routeDedupCap entries = (dedupFirst entries).take 500 := by
    unfold routeDedupCap dedupFirst
    have := dedupeLoop_eq entries [] [] (by simp)
    simpa using this
  have h2 : (routeDedupCap entries).length ≤ 500 := by
    rw [h1]; exact List.length_take_le _ _
  refine ⟨h1, h2, ?_, ?_⟩
  · rw [h1, List.map_take]
    have hnd : ((dedupFirst entries).map (fun e => e.loc)).Nodup :=
      (dedupFirstAux_spec entries []).1
    exact List.Nodup.sublist (List.take_sublist _ _) hnd
  · intro st url
    unfold putPagesBulk
    have hrec := putPagesBulkRecords_eq_map url ((routeDedupCap entries).map (toInput url)) 1000
    rw [hrec]
    have := foldl_storePut_length
      ((((routeDedupCap entries).map (toInput url))).map (stampRecord url)) st
    simp only [List.length_map] at this
    omega

/-! ## Structure of the event traces of a worker run -/

/-- Events emitted by ordinary group processing. -/
def plainEvent : Event → Prop
  | Event.batch _ => True
  | Event.progress _ => True
  | _ => False

/-- The progress snapshots carried by the progress events of a trace,
in emission order. -/
def progressParts (evs : List Event) : List Progress :=
  evs.filterMap fun e =>
    match e with
    | Event.progress p => some p
    | _ => none

/-- Componentwise order on the two accumulated counters. -/
def progLE (a b : Progress) : Prop :=
  a.processedSitemaps ≤ b.processedSitemaps ∧ a.urlsImported ≤ b.urlsImported

theorem runPool_spec (s : WSched) :
    ∀ (groups : List (List String)) (k : Nat) (st : Store) (p : Progress),
      ∃ base,
        (∀ e ∈ base, plainEvent e)
        ∧ (runPool s groups k st p).events =
            base ++ (if (runPool s groups k st p).raised = none ∧
                        (runPool s groups k st p).cancelled = true
                     then [Event.observedCancel] else [])
        ∧ List.Chain' progLE (progressParts base)
        ∧ (∀ q ∈ progressParts base, progLE p q) := by
  intro groups
  induction groups with
  | nil =>
    intro k st p
    refine ⟨[], by simp, ?_, by simp [progressParts], by simp [progressParts]⟩
    simp [runPool]
  | cons g rest ih =>
    intro k st p
    by_cases habort : s.cancelAt = CancelAt.duringGroupFetch k
    · refine ⟨[], by simp, ?_, by simp [progressParts], by simp [progressParts]⟩
      simp [runPool, habort]
    · cases hres : s.groupRes k with
      | fail msg =>
        refine ⟨[], by simp, ?_, by simp [progressParts], by simp [progressParts]⟩
        simp [runPool, habort, hres]
      | ok urls =>
        by_cases hw : s.cancelAt = CancelAt.duringGroupWrite k
        · refine ⟨[Event.batch (urls.take s.samplePerBatch),
            Event.progress { p with
              urlsImported := p.urlsImported + urls.length
              processedSitemaps := p.processedSitemaps + g.length }], ?_, ?_, ?_, ?_⟩
          · intro e he
            rcases List.mem_cons.mp he with h | h
            · subst h; trivial
            · rcases List.mem_cons.mp h with h | h
              · subst h; trivial
              · simp at h
          · simp [runPool, habort, hres, hw]
          · simp [progressParts, List.Chain']
          · intro q hq
            simp [progressParts] at hq
            subst hq
            exact ⟨by simp, by simp⟩
        · obtain ⟨base, hplain, hevs, hchain, hlow⟩ :=
            ih (k + 1) (putPagesBulk st s.url (urls.map (toInput s.url)) 1000)
              { p with
                urlsImported := p.urlsImported + urls.length
                processedSitemaps := p.processedSitemaps + g.length }
          refine ⟨Event.batch (urls.take s.samplePerBatch) ::
            Event.progress { p with
              urlsImported := p.urlsImported + urls.length
              processedSitemaps := p.processedSitemaps + g.length } :: base, ?_, ?_, ?_, ?_⟩
          · intro e he
            rcases List.mem_cons.mp he with h | h
            · subst h; trivial
            · rcases List.mem_cons.mp h with h | h
              · subst h; trivial
              · exact hplain e h
          · simp [runPool, habort, hres, hw, hevs]
          · simp only [progressParts, List.filterMap_cons]
            rw [List.chain'_cons']
            refine ⟨?_, hchain⟩
            intro q hq
            have hq' : q ∈ progressParts base := by
              have := List.mem_of_mem_head? hq
              exact this
            exact hlow q hq'
          · intro q hq
            simp only [progressParts, List.filterMap_cons] at hq
            rcases List.mem_cons.mp hq with h | h
            · subst h
              exact ⟨Nat.le_add_right _ _, Nat.le_add_right _ _⟩
            · have h2 := hlow q h
              exact ⟨Nat.le_trans (Nat.le_add_right _ _) h2.1,
                Nat.le_trans (Nat.le_add_right _ _) h2.2⟩

/-- Initial progress snapshot of the urlset path. -/
def urlsetP0 (s : WSched) : Progress :=
  { totalSitemaps := 1, processedSitemaps := 0, urlsImported := 0, startedAt := s.tStart }

/-- Initial progress snapshot of the index path. -/
def indexP0 (s : WSched) (sitemaps : List String) (count : Option Nat) : Progress :=
  { totalSitemaps := count.getD sitemaps.length, processedSitemaps := 0
    urlsImported := 0, startedAt := s.tStart }

/-- Exhaustive description of the traces a worker run can produce:
an immediate error; a start followed by an error; the urlset path with
its batch sample and a complete event carrying the recount; a pool
trace ending in an error; a pool trace ending at the two cancellation
polls; or a pool trace ending in a complete event carrying the
recount.  In every complete case the persisted SourceMeta carries the
same recount and the fresh TTL window. -/
theorem workerRun_cases (s : WSched) (st0 : Store) :
    (∃ msg, (workerRun s st0).events = [Event.error msg] ∧ (workerRun s st0).meta = none)
    ∨ (∃ p0 msg, (workerRun s st0).events = [Event.start p0, Event.error msg]
        ∧ (workerRun s st0).meta = none)
    ∨ (∃ p0 sample,
        (workerRun s st0).events = [Event.start p0, Event.batch sample,
          Event.complete (countBySource (workerRun s st0).store s.url)]
        ∧ (workerRun s st0).meta = some
            { url := s.url, lastFetched := s.tMeta1, expiresAt := s.tMeta2 + s.ttlMs
              total := countBySource (workerRun s st0).store s.url })
    ∨ (∃ p0 base msg, (∀ e ∈ base, plainEvent e)
        ∧ List.Chain' progLE (progressParts base)
        ∧ (workerRun s st0).events = Event.start p0 :: base ++ [Event.error msg]
        ∧ (workerRun s st0).meta = none)
    ∨ (∃ p0 base, (∀ e ∈ base, plainEvent e)
        ∧ List.Chain' progLE (progressParts base)
        ∧ (workerRun s st0).events =
            Event.start p0 :: base ++ [Event.observedCancel, Event.observedCancel]
        ∧ (workerRun s st0).meta = none)
    ∨ (∃ p0 base, (∀ e ∈ base, plainEvent e)
        ∧ List.Chain' progLE (progressParts base)
        ∧ (workerRun s st0).events =
            Event.start p0 :: base ++
              [Event.complete (countBySource (workerRun s st0).store s.url)]
        ∧ (workerRun s st0).meta = some
            { url := s.url, lastFetched := s.tMeta1, expiresAt := s.tMeta2 + s.ttlMs
              total := countBySource (workerRun s st0).store s.url }) := by
  by_cases h1 : s.cancelAt = CancelAt.duringAnalyze
  · exact Or.inl ⟨abortMsg, by simp [workerRun, h1], by simp [workerRun, h1]⟩
  · cases h2 : s.analyzeRes with
    | fail msg =>
      exact Or.inl ⟨msg, by simp [workerRun, h1, h2], by simp [workerRun, h1, h2]⟩
    | ok info =>
      cases info with
      | urlset =>
        by_cases h3 : s.cancelAt = CancelAt.duringUrlsetFetch
        · refine Or.inr (Or.inl ⟨urlsetP0 s, abortMsg, ?_, ?_⟩) <;>
            simp [workerRun, urlsetP0, h1, h2, h3]
        · cases h4 : s.urlsetRes with
          | fail msg =>
            refine Or.inr (Or.inl ⟨urlsetP0 s, msg, ?_, ?_⟩) <;>
              simp [workerRun, urlsetP0, h1, h2, h3, h4]
          | ok urls =>
            refine Or.inr (Or.inr (Or.inl ⟨urlsetP0 s, urls.take 50, ?_, ?_⟩)) <;>
              simp [workerRun, urlsetP0, h1, h2, h3, h4]
      | index sitemaps count =>
        obtain ⟨base, hplain, hevs, hchain, _⟩ :=
          runPool_spec s (chunkList s.groupSize sitemaps) 0 st0
            { totalSitemaps := count.getD sitemaps.length, processedSitemaps := 0
              urlsImported := 0, startedAt := s.tStart }
        cases hr : (runPool s (chunkList s.groupSize sitemaps) 0 st0
            { totalSitemaps := count.getD sitemaps.length, processedSitemaps := 0
              urlsImported := 0, startedAt := s.tStart }).raised with
        | some msg =>
          rw [hr] at hevs
          simp only [reduceCtorEq, false_and, if_false, List.append_nil] at hevs
          refine Or.inr (Or.inr (Or.inr (Or.inl
            ⟨indexP0 s sitemaps count, base, msg, hplain, hchain, ?_, ?_⟩))) <;>
            simp [workerRun, indexP0, h1, h2, hr, hevs]
        | none =>
          rw [hr] at hevs
          by_cases hcanc : (runPool s (chunkList s.groupSize sitemaps) 0 st0
              { totalSitemaps := count.getD sitemaps.length, processedSitemaps := 0
                urlsImported := 0, startedAt := s.tStart }).cancelled = true
          · rw [hcanc] at hevs
            simp only [and_self, if_true] at hevs
            refine Or.inr (Or.inr (Or.inr (Or.inr (Or.inl
              ⟨indexP0 s sitemaps count, base, hplain, hchain, ?_, ?_⟩)))) <;>
              simp [workerRun, indexP0, h1, h2, hr, hcanc, hevs]
          · have hcanc' : (runPool s (chunkList s.groupSize sitemaps) 0 st0
                { totalSitemaps := count.getD sitemaps.length, processedSitemaps := 0
                  urlsImported := 0, startedAt := s.tStart }).cancelled = false := by
              simpa using hcanc
            rw [hcanc'] at hevs
            simp only [Bool.false_eq_true, and_false, if_false, List.append_nil] at hevs
            refine Or.inr (Or.inr (Or.inr (Or.inr (Or.inr
              ⟨indexP0 s sitemaps count, base, hplain, hchain, ?_, ?_⟩)))) <;>
              simp [workerRun, indexP0, h1, h2, hr, hcanc', hevs]

theorem plainEvent_ne {e : Event} (h : plainEvent e) :
    (∀ t, e ≠ Event.complete t) ∧ (∀ m, e ≠ Event.error m) ∧ e ≠ Event.observedCancel := by
  cases e <;> simp [plainEvent] at h ⊢

theorem after_marker :
    ∀ (pre suf l1 l2 : List Event),
      Event.observedCancel ∉ pre →
      (∀ e ∈ suf, e = Event.observedCancel) →
      pre ++ suf = l1 ++ Event.observedCancel :: l2 →
      ∀ e ∈ l2, e = Event.observedCancel := by
  intro pre
  induction pre with
  | nil =>
    intro suf l1 l2 _ hsuf heq e he
    apply hsuf
    have : suf = l1 ++ Event.observedCancel :: l2 := by simpa using heq
    rw [this]
    exact List.mem_append_right _ (List.mem_cons_of_mem _ he)
  | cons a pre' ih =>
    intro suf l1 l2 hpre hsuf heq e he
    cases l1 with
    | nil =>
      simp only [List.cons_append, List.nil_append] at heq
      have ha : a = Event.observedCancel := (List.cons_eq_cons.mp heq).1
      exact absurd (ha ▸ List.mem_cons_self a pre') hpre
    | cons b l1' =>
      simp only [List.cons_append] at heq
      obtain ⟨_, htl⟩ := List.cons_eq_cons.mp heq
      exact ih suf l1' l2 (fun hmem => hpre (List.mem_cons_of_mem a hmem)) hsuf htl e he

/-! ## Claim C1 -/

/-- C1 (amended: the suppression holds at the polling points of the
shared cancelled flag, but not for cancellation that aborts an
in-flight request): once a poll of the run observes the cancelled flag
(the while-loop check of the pool or the check before finalization),
no complete event and no error event is ever emitted afterwards —
everything after such an observation is another observation.  The
counterexample shows the unguarded catch of the worker emitting an
error event when cancellation aborts an in-flight group request. -/
theorem c1_silent_after_cancel_poll (s : WSched) (st0 : Store) (l1 l2 : List Event)
    (h : (workerRun s st0).events = l1 ++ Event.observedCancel :: l2) :
    ∀ e ∈ l2, e = Event.observedCancel := by
  have hobs : Event.observedCancel ∈ (workerRun s st0).events := by
    rw [h]
    exact List.mem_append_right _ (List.mem_cons_self _ _)
  rcases workerRun_cases s st0 with
    ⟨msg, he, _⟩ | ⟨p0, msg, he, _⟩ | ⟨p0, sample, he, _⟩ |
    ⟨p0, base, msg, hb, _, he, _⟩ | ⟨p0, base, hb, _, he, _⟩ | ⟨p0, base, hb, _, he, _⟩
  · rw [he] at hobs; simp at hobs
  · rw [he] at hobs; simp at hobs
  · rw [he] at hobs; simp at hobs
  · rw [he] at hobs
    rcases List.mem_cons.mp hobs with hx | hx
    · exact absurd hx.symm (by simp)
    · rcases List.mem_append.mp hx with hx | hx
      · exact absurd rfl (plainEvent_ne (hb _ hx)).2.2
      · simp at hx
  · rw [he] at h
    refine after_marker (Event.start p0 :: base)
      [Event.observedCancel, Event.observedCancel] l1 l2 ?_ (by simp) ?_
    · intro hmem
      rcases List.mem_cons.mp hmem with hx | hx
      · exact absurd hx (by simp)
      · exact absurd rfl (plainEvent_ne (hb _ hx)).2.2
    · rw [← h]
  · rw [he] at hobs
    rcases List.mem_cons.mp hobs with hx | hx
    · exact absurd hx.symm (by simp)
    · rcases List.mem_append.mp hx with hx | hx
      · exact absurd rfl (plainEvent_ne (hb _ hx)).2.2
      · simp at hx

def abortedEntry : UrlEntry := { loc := "https://e.com/x", lastmod := none }

/-- Schedule in which the cancel message arrives while the request for
the first group is in flight: the abort rejection reaches the
unguarded catch of the run. -/
def c1Sched : WSched :=
  { url := "https://e.com/sitemap.xml", groupSize := 20, samplePerBatch := 50
    ttlMs := 21600000
    analyzeRes := FetchRes.ok (AnalyzeInfo.index ["https://e.com/a.xml"] none)
    urlsetRes := FetchRes.ok []
    groupRes := fun _ => FetchRes.ok [abortedEntry]
    cancelAt := CancelAt.duringGroupFetch 0
    tStart := 0, tMeta1 := 0, tMeta2 := 0 }

/-- C1 counterexample: a run in which the cancel message set the flag
and aborted the in-flight request before the run finished
(cancelledFinal is true) still emits an error event afterwards, so
the claim that no error event follows cancellation fails on the
worker. -/
theorem c1_counterexample :
    (workerRun c1Sched []).cancelledFinal = true ∧
      (workerRun c1Sched []).events =
        [Event.start { totalSitemaps := 1, processedSitemaps := 0, urlsImported := 0
                       startedAt := 0 },
         Event.error abortMsg] := by
  exact ⟨by decide, by decide⟩

/-- Schedule in which the cancel message arrives during the store
write of the first group, so the next poll observes the flag. -/
def c1wSched : WSched :=
  { url := "https://e.com/sitemap.xml", groupSize := 1, samplePerBatch := 50
    ttlMs := 21600000
    analyzeRes := FetchRes.ok (AnalyzeInfo.index ["https://e.com/a.xml", "https://e.com/b.xml"] none)
    urlsetRes := FetchRes.ok []
    groupRes := fun _ => FetchRes.ok [abortedEntry]
    cancelAt := CancelAt.duringGroupWrite 0
    tStart := 0, tMeta1 := 0, tMeta2 := 0 }

/-- Witness instantiating c1_silent_after_cancel_poll on a run whose
trace contains an observation of the cancelled flag. -/
theorem c1_witness :
    (workerRun c1wSched []).events =
      [Event.start { totalSitemaps := 2, processedSitemaps := 0, urlsImported := 0
                     startedAt := 0 },
       Event.batch [abortedEntry],
       Event.progress { totalSitemaps := 2, processedSitemaps := 1, urlsImported := 1
                        startedAt := 0 }] ++
        Event.observedCancel :: [Event.observedCancel]
    ∧ ∀ e ∈ [Event.observedCancel], e = Event.observedCancel := by
  refine ⟨by decide, ?_⟩
  exact c1_silent_after_cancel_poll c1wSched []
    [Event.start { totalSitemaps := 2, processedSitemaps := 0, urlsImported := 0
                   startedAt := 0 },
     Event.batch [abortedEntry],
     Event.progress { totalSitemaps := 2, processedSitemaps := 1, urlsImported := 1
                      startedAt := 0 }]
    [Event.observedCancel] (by decide)

/-! ## Claim C6 -/

/-- C6: within one run the processedSitemaps and urlsImported counters
never decrease across successive progress events: each processed group
adds its own length and the fetched record count, both non-negative,
to the shared counters, so the progress snapshots form a chain under
the componentwise order. -/
theorem c6_progress_monotone (s : WSched) (st0 : Store) :
    List.Chain' progLE (progressParts (workerRun s st0).events) := by
  rcases workerRun_cases s st0 with
    ⟨msg, he, _⟩ | ⟨p0, msg, he, _⟩ | ⟨p0, sample, he, _⟩ |
    ⟨p0, base, msg, hb, hc, he, _⟩ | ⟨p0, base, hb, hc, he, _⟩ | ⟨p0, base, hb, hc, he, _⟩ <;>
    rw [he] <;>
    simp [progressParts, List.filterMap_append, List.filterMap_cons] <;>
    simpa [progressParts] using hc

/-! ## Claim C5 -/

def dupSched : WSched :=
  { url := "https://e.com/sitemap.xml", groupSize := 1, samplePerBatch := 50
    ttlMs := 21600000
    analyzeRes := FetchRes.ok (AnalyzeInfo.index ["https://e.com/a.xml", "https://e.com/b.xml"] none)
    urlsetRes := FetchRes.ok []
    groupRes := fun _ => FetchRes.ok [abortedEntry]
    cancelAt := CancelAt.never
    tStart := 0, tMeta1 := 5, tMeta2 := 5 }

/-- C5: the total carried by every complete event equals the exact
recount, at finalization, of stored records whose sourceUrl is the
root of the import, and the persisted SourceMeta carries the same total; the
closed conjuncts exhibit a run (the same child URL fetched by two
groups) where the accumulated urlsImported counter reads 2 while the
emitted and persisted total is the recount 1, so the total is not the
accumulated counter. -/
theorem c5_total_recount :
    (∀ (s : WSched) (st0 : Store) (t : Nat),
        Event.complete t ∈ (workerRun s st0).events →
        t = countBySource (workerRun s st0).store s.url
        ∧ ∃ m, (workerRun s st0).meta = some m ∧ m.total = t)
    ∧ Event.complete 1 ∈ (workerRun dupSched []).events
    ∧ (workerRun dupSched []).prog.urlsImported = 2 := by
  refine ⟨?_, by decide, by decide⟩
  intro s st0 t hmem
  rcases workerRun_cases s st0 with
    ⟨msg, he, hm⟩ | ⟨p0, msg, he, hm⟩ | ⟨p0, sample, he, hm⟩ |
    ⟨p0, base, msg, hb, _, he, hm⟩ | ⟨p0, base, hb, _, he, hm⟩ | ⟨p0, base, hb, _, he, hm⟩
  · rw [he] at hmem; simp at hmem
  · rw [he] at hmem; simp at hmem
  · rw [he] at hmem
    simp only [List.mem_cons, List.mem_singleton] at hmem
    rcases hmem with hx | hx | hx | hx
    · exact absurd hx (by simp)
    · exact absurd hx (by simp)
    · have ht : t = countBySource (workerRun s st0).store s.url := by
        simpa using hx
      exact ⟨ht, _, hm, by rw [ht]⟩
    · simp at hx
  · rw [he] at hmem
    rcases List.mem_cons.mp hmem with hx | hx
    · exact absurd hx (by simp)
    · rcases List.mem_append.mp hx with hx | hx
      · exact absurd rfl ((plainEvent_ne (hb _ hx)).1 t)
      · simp at hx
  · rw [he] at hmem
    rcases List.mem_cons.mp hmem with hx | hx
    · exact absurd hx (by simp)
    · rcases List.mem_append.mp hx with hx | hx
      · exact absurd rfl ((plainEvent_ne (hb _ hx)).1 t)
      · simp at hx
  · rw [he] at hmem
    rcases List.mem_cons.mp hmem with hx | hx
    · exact absurd hx (by simp)
    · rcases List.mem_append.mp hx with hx | hx
      · exact absurd rfl ((plainEvent_ne (hb _ hx)).1 t)
      · have ht : t = countBySource (workerRun s st0).store s.url := by
          simpa using hx
        exact ⟨ht, _, hm, by rw [ht]⟩

/-- Witness instantiating the universal part of c5_total_recount. -/
theorem c5_witness :
    1 = countBySource (workerRun dupSched []).store dupSched.url
    ∧ ∃ m, (workerRun dupSched []).meta = some m ∧ m.total = 1 :=
  c5_total_recount.1 dupSched [] 1 (by decide)

/-! ## Claim C7 -/

/-- C7 (amended: the invariant holds provided the caller-supplied TTL
is positive — as the 6-hour default is — and the clock does not run
backwards between the two Date.now() calls; a zero or negative ttlMs
makes the persisted expiresAt not exceed lastFetched, as the
counterexample shows): every SourceMeta persisted by a successful
completion of the worker run or of importAndCache satisfies
expiresAt > lastFetched. -/
theorem c7_expiry_invariant :
    (∀ (s : WSched) (st0 : Store) (m : SourceMeta),
        0 < s.ttlMs → s.tMeta1 ≤ s.tMeta2 →
        (workerRun s st0).meta = some m → m.lastFetched < m.expiresAt)
    ∧ (∀ (url : String) (sc : ICSched) (pages : Store) (sources : Sources)
        (ttlMs : Int) (n : Nat) (out : ImportResult × Store × Sources),
        0 < ttlMs → sc.t1 ≤ sc.t2 →
        importAndCache url sc pages sources ttlMs n = FetchRes.ok out →
        out.1.meta.lastFetched < out.1.meta.expiresAt) := by
  constructor
  · intro s st0 m httl hts hm
    rcases workerRun_cases s st0 with
      ⟨msg, _, hmn⟩ | ⟨p0, msg, _, hmn⟩ | ⟨p0, sample, _, hmn⟩ |
      ⟨p0, base, msg, _, _, _, hmn⟩ | ⟨p0, base, _, _, _, hmn⟩ | ⟨p0, base, _, _, _, hmn⟩
    · rw [hmn] at hm; exact absurd hm (by simp)
    · rw [hmn] at hm; exact absurd hm (by simp)
    · rw [hmn] at hm
      have := Option.some.inj hm
      rw [← this]
      simp only
      omega
    · rw [hmn] at hm; exact absurd hm (by simp)
    · rw [hmn] at hm; exact absurd hm (by simp)
    · rw [hmn] at hm
      have := Option.some.inj hm
      rw [← this]
      simp only
      omega
  · intro url sc pages sources ttlMs n out httl hts hok
    unfold importAndCache at hok
    cases hf : sc.fetchRes with
    | fail msg => rw [hf] at hok; exact absurd hok (by simp)
    | ok entries =>
      rw [hf] at hok
      simp only [FetchRes.ok.injEq] at hok
      rw [← hok]
      simp only
      omega

/-- C7 counterexample: with a caller-supplied ttlMs of zero and the
two Date.now() readings equal, a successful importAndCache completion
persists a SourceMeta whose expiresAt equals its lastFetched, so the
claimed invariant fails for that ttlMs option. -/
theorem c7_counterexample :
    importAndCache "u" { fetchRes := FetchRes.ok [], t1 := 0, t2 := 0 } [] [] 0 200 =
      FetchRes.ok
        ({ sample := [], total := 0
           meta := { url := "u", lastFetched := 0, expiresAt := 0, total := 0 } },
         [], [{ url := "u", lastFetched := 0, expiresAt := 0, total := 0 }])
    ∧ ¬ (({ url := "u", lastFetched := 0, expiresAt := 0, total := 0 } : SourceMeta).lastFetched <
        ({ url := "u", lastFetched := 0, expiresAt := 0, total := 0 } : SourceMeta).expiresAt) := by
  exact ⟨by decide, by decide⟩

/-- Witness instantiating c7_expiry_invariant. -/
theorem c7_witness :
    (({ sample := [], total := 0
        meta := { url := "u", lastFetched := 3, expiresAt := 104, total := 0 } } : ImportResult),
      ([] : Store),
      ([{ url := "u", lastFetched := 3, expiresAt := 104, total := 0 }] : Sources)).1.meta.lastFetched <
    (({ sample := [], total := 0
        meta := { url := "u", lastFetched := 3, expiresAt := 104, total := 0 } } : ImportResult),
      ([] : Store),
      ([{ url := "u", lastFetched := 3, expiresAt := 104, total := 0 }] : Sources)).1.meta.expiresAt :=
  c7_expiry_invariant.2 "u" { fetchRes := FetchRes.ok [], t1 := 3, t2 := 4 } [] [] 100 200
    _ (by decide) (by decide) (by decide)

/-! ## Claim C8 -/

/-- C8: refreshIfExpired triggers the background re-import exactly
when a SourceMeta exists for the url and the clock is strictly past
its expiresAt; on success the onUpdated callback receives the fresh
result, a failed background import leaves the callback uninvoked, and
in every case nothing is propagated to the caller — the call itself
never rejects because of the background import. -/
theorem c8_refresh_fire_and_forget (url : String) (now : Int) (sc : ICSched)
    (ttlMs : Int) (pages : Store) (sources : Sources) :
    ((refreshIfExpired url now sc ttlMs pages sources).1.triggered = true ↔
      ∃ m, getSource sources url = some m ∧ m.expiresAt < now)
    ∧ (refreshIfExpired url now sc ttlMs pages sources).1.propagated = none
    ∧ (∀ out, importAndCache url sc pages sources ttlMs 200 = FetchRes.ok out →
        (refreshIfExpired url now sc ttlMs pages sources).1.triggered = true →
        (refreshIfExpired url now sc ttlMs pages sources).1.updated = some out.1)
    ∧ (∀ msg, importAndCache url sc pages sources ttlMs 200 = FetchRes.fail msg →
        (refreshIfExpired url now sc ttlMs pages sources).1.updated = none) := by
  cases hm : getSource sources url with
  | none =>
    have hre : refreshIfExpired url now sc ttlMs pages sources =
        ({ triggered := false, updated := none, propagated := none }, pages, sources) := by
      simp [refreshIfExpired, hm]
    refine ⟨?_, by rw [hre], ?_, ?_⟩
    · rw [hre]
      simp [hm]
    · intro out _ htrig
      rw [hre] at htrig
      exact absurd htrig (by simp)
    · intro msg _
      rw [hre]
  | some meta =>
    by_cases hexp : meta.expiresAt < now
    · cases hic : importAndCache url sc pages sources ttlMs 200 with
      | ok out' =>
        obtain ⟨r, pages', sources'⟩ := out'
        have hre : refreshIfExpired url now sc ttlMs pages sources =
            ({ triggered := true, updated := some r, propagated := none },
              pages', sources') := by
          simp [refreshIfExpired, hm, hexp, hic]
        refine ⟨?_, by rw [hre], ?_, ?_⟩
        · rw [hre]
          simp only [true_iff]
          exact ⟨meta, rfl, hexp⟩
        · intro out hout _
          have hq := FetchRes.ok.inj hout
          rw [hre, ← hq]
        · intro msg hmsg
          exact absurd hmsg (by simp)
      | fail msg =>
        have hre : refreshIfExpired url now sc ttlMs pages sources =
            ({ triggered := true, updated := none, propagated := none },
              pages, sources) := by
          simp [refreshIfExpired, hm, hexp, hic]
        refine ⟨?_, by rw [hre], ?_, ?_⟩
        · rw [hre]
          simp only [true_iff]
          exact ⟨meta, rfl, hexp⟩
        · intro out hout _
          exact absurd hout (by simp)
        · intro msg2 _
          rw [hre]
    · have hre : refreshIfExpired url now sc ttlMs pages sources =
          ({ triggered := false, updated := none, propagated := none },
            pages, sources) := by
        simp [refreshIfExpired, hm, hexp]
      refine ⟨?_, by rw [hre], ?_, ?_⟩
      · rw [hre]
        simp only [reduceCtorEq, false_iff, not_exists]
        intro m hm2
        have hmm : m = meta := (Option.some.inj hm2.1).symm
        rw [hmm] at hm2
        exact absurd hm2.2 hexp
      · intro out _ htrig
        rw [hre] at htrig
        exact absurd htrig (by simp)
      · intro msg _
        rw [hre]

def c8Meta : SourceMeta := { url := "u", lastFetched := 0, expiresAt := 5, total := 0 }

/-- Witness instantiating c8_refresh_fire_and_forget on an expired
source with a successful background import. -/
theorem c8_witness :
    ((refreshIfExpired "u" 10 { fetchRes := FetchRes.ok [], t1 := 10, t2 := 10 } 100
        [] [c8Meta]).1.triggered = true ↔
      ∃ m, getSource [c8Meta] "u" = some m ∧ m.expiresAt < 10)
    ∧ (refreshIfExpired "u" 10 { fetchRes := FetchRes.ok [], t1 := 10, t2 := 10 } 100
        [] [c8Meta]).1.propagated = none :=
  ⟨(c8_refresh_fire_and_forget "u" 10 { fetchRes := FetchRes.ok [], t1 := 10, t2 := 10 }
      100 [] [c8Meta]).1,
   (c8_refresh_fire_and_forget "u" 10 { fetchRes := FetchRes.ok [], t1 := 10, t2 := 10 }
      100 [] [c8Meta]).2.1⟩

end SitemapCache
